import Mathlib

/-!
Verification of the melissa customer-record reconciliation script
(src/melissa.py) against its natural-language specification.

The embedding follows the source: `Key` and `Data` mirror the Python
classes of the same names, `Data.update` mirrors `Data.update`
(lines 106-128), `fuzzyFilter` mirrors `fuzzy_filter` (lines 251-342),
and `addressMatch` mirrors the `ADDRESS` regular expression
(lines 52-56) together with its use at lines 193-197.  Python strings
are `String` (or `List Char` where character structure matters),
Python `None` is `Option.none`, Python dictionaries are association
lists in insertion order, and floating-point tolerances are rationals.

The similarity index (`FuzzyFrozenDict` from the third-party easy-fuzzy
package) is not part of this repository and is modelled from the
specification, section 4.4: greedy first-match clustering of the
composite strings of a partition, parametrised by a pluggable
similarity function and a tolerance.
-/

set_option autoImplicit false

namespace Melissa

/-- The composite key of src/melissa.py lines 59-80: customer name,
address, city, state and zip code. -/
structure Key where
  customer_name : String
  address : String
  city : String
  state : String
  zip : String
deriving DecidableEq, Repr

/-- `Key.clean` (line 80): strip whitespace and upper-case every field. -/
def Key.clean (k : Key) : Key :=
  ⟨k.customer_name.trim.toUpper, k.address.trim.toUpper, k.city.trim.toUpper,
    k.state.trim.toUpper, k.zip.trim.toUpper⟩

/-- The degenerate all-empty key removed after accumulation (line 243). -/
def emptyKey : Key := ⟨"", "", "", "", ""⟩

/-- The per-customer record of src/melissa.py lines 84-104.  Optional
text fields default to `none` (Python `None`); provenance flags default
to `false`. -/
structure Data where
  tdlinx : Option String := none
  sold_to : Option String := none
  license_number : Option String := none
  channel : Option String := none
  sub_channel : Option String := none
  is_in_spectra : Bool := false
  is_in_gallo : Bool := false
  is_in_ww : Bool := false
deriving DecidableEq, Repr

/-- One optional scalar field of `Data.update` (lines 116-125): the
incoming value wins exactly when it is not `None`.  (The Python test is
`kwargs.get(field) is not None`; an empty string is not `None`.) -/
def mergeField (old incoming : Option String) : Option String :=
  match incoming with
  | some v => some v
  | none => old

/-- `Data.update` (lines 106-128): each optional scalar field is
overwritten when the incoming value is not `None`; the three provenance
flags are combined with `|=`. -/
def Data.update (self other : Data) : Data where
  tdlinx := mergeField self.tdlinx other.tdlinx
  sold_to := mergeField self.sold_to other.sold_to
  license_number := mergeField self.license_number other.license_number
  channel := mergeField self.channel other.channel
  sub_channel := mergeField self.sub_channel other.sub_channel
  is_in_spectra := self.is_in_spectra || other.is_in_spectra
  is_in_gallo := self.is_in_gallo || other.is_in_gallo
  is_in_ww := self.is_in_ww || other.is_in_ww

/-- Folding a sequence of update contributions into a record, as the
accumulation loops (lines 177-240) and the cluster-merge loop
(lines 329-336) do. -/
def foldUpdates (r : Data) (us : List Data) : Data :=
  us.foldl Data.update r

/-- Compatibility of two records: no optional scalar field carries two
different non-null values.  This is the hypothesis under which the
merge rule commutes. -/
def scalarCompat (a b : Data) : Prop :=
  (a.tdlinx = none ∨ b.tdlinx = none ∨ a.tdlinx = b.tdlinx) ∧
  (a.sold_to = none ∨ b.sold_to = none ∨ a.sold_to = b.sold_to) ∧
  (a.license_number = none ∨ b.license_number = none ∨ a.license_number = b.license_number) ∧
  (a.channel = none ∨ b.channel = none ∨ a.channel = b.channel) ∧
  (a.sub_channel = none ∨ b.sub_channel = none ∨ a.sub_channel = b.sub_channel)

instance (a b : Data) : Decidable (scalarCompat a b) := by
  unfold scalarCompat
  infer_instance

/-- Lookup in an insertion-ordered association list with the semantics
of a Python `defaultdict`: a missing key yields the default value. -/
def lookupD {α : Type} (dflt : α) : List (Key × α) → Key → α
  | [], _ => dflt
  | (k0, v) :: rest, k => if k0 = k then v else lookupD dflt rest k

/-- Store a value in an insertion-ordered association list: replace the
binding in place when the key is present, append a new binding
otherwise (Python dict assignment). -/
def setD {α : Type} : List (Key × α) → Key → α → List (Key × α)
  | [], k, v => [(k, v)]
  | (k0, v0) :: rest, k, v =>
    if k0 = k then (k0, v) :: rest else (k0, v0) :: setD rest k v

/-- Python `del m[key]`: drop the binding of `key` (the keys of a dict
are distinct, so dropping the first binding drops the only one). -/
def delKey : List (Key × Data) → Key → List (Key × Data)
  | [], _ => []
  | (k0, v0) :: rest, k => if k0 = k then rest else (k0, v0) :: delKey rest k

/-- Lines 242-249: remove the degenerate all-empty key from a channel
mapping after accumulation, when it is present. -/
def removeEmpty (m : List (Key × Data)) : List (Key × Data) :=
  if emptyKey ∈ m.map Prod.fst then delKey m emptyKey else m

/-- One step of the grouping loop of lines 306-308: append the key to
the group of its `(state, zip)` pair, founding the group at the end
when the pair is new (`defaultdict(list)` semantics). -/
def addToGroup (p : String × String) (k : Key) :
    List ((String × String) × List Key) → List ((String × String) × List Key)
  | [] => [(p, [k])]
  | (q, l) :: rest =>
    if q = p then (q, l ++ [k]) :: rest else (q, l) :: addToGroup p k rest

/-- Lines 306-308: group the keys of a channel by exact `(state, zip)`;
groups appear in first-occurrence order, members in input order. -/
def groupByZip (ks : List Key) : List ((String × String) × List Key) :=
  ks.foldl (fun acc k => addToGroup (k.state, k.zip) k acc) []

/-- Line 318: the composite identity string used for fuzzy matching. -/
def composite (k : Key) : String :=
  k.customer_name ++ " | " ++ k.address ++ " | " ++ k.city

/-- Modelled from the spec: the similarity index (`FuzzyFrozenDict` of
the third-party easy-fuzzy package, line 316) is not among the sources
of this repository.  Following section 4.4 of the spec, the index is a
greedy first-match clusterer over the composite strings of one
partition, parametrised by a pluggable similarity function and a
tolerance: each key joins the first cluster whose canonical composite
is similar at or above the tolerance, and founds a new cluster of which
it is the canonical when no cluster matches.  Every cluster lists its
canonical key first and contains it among its members. -/
def addToClusters (sim : String → String → ℚ) (tol : ℚ) (k : Key) :
    List (Key × List Key) → List (Key × List Key)
  | [] => [(k, [k])]
  | (c, members) :: rest =>
    if tol ≤ sim (composite c) (composite k)
    then (c, members ++ [k]) :: rest
    else (c, members) :: addToClusters sim tol k rest

/-- Modelled from the spec (section 4.4): the disjoint clusters of the
keys of one partition, in founding order. -/
def clustersOf (sim : String → String → ℚ) (tol : ℚ) (keys : List Key) :
    List (Key × List Key) :=
  keys.foldl (fun acc k => addToClusters sim tol k acc) []

/-- All clusters seen by the loop of lines 314-338, partition by
partition, with the index of every partition built at tolerance
`tol`. -/
def allClustersWith (sim : String → String → ℚ) (tol : ℚ)
    (customers : List (Key × Data)) : List (Key × List Key) :=
  ((groupByZip (customers.map Prod.fst)).map fun g => clustersOf sim tol g.2).flatten

/-- Lines 326-336: fold the records of the members of one cluster into
a running record with `Data.update`. -/
def clusterData (customers : List (Key × Data)) (start : Data)
    (members : List Key) : Data :=
  members.foldl (fun acc k => Data.update acc (lookupD {} customers k)) start

/-- Lines 337-338: record each member of a non-singleton cluster into
the dupe-ledger entry of its canonical key (`defaultdict(Data)`
semantics for the inner mapping). -/
def clusterLedger (customers : List (Key × Data)) (entry : List (Key × Data))
    (members : List Key) : List (Key × Data) :=
  members.foldl
    (fun e k => setD e k (Data.update (lookupD {} e k) (lookupD {} customers k)))
    entry

/-- The two accumulators of `fuzzy_filter` (lines 310-311): the merged
result and the dupe ledger. -/
structure FilterState where
  result : List (Key × Data)
  dupes : List (Key × List (Key × Data))
deriving DecidableEq, Repr

/-- Lines 324-338, one cluster: fold every member into the record of
the canonical key, and when the cluster has more than one member record
every member into the ledger entry of the canonical key.  The source
updates the two independent structures in a single pass over the
members; the embedding performs the two independent passes
separately. -/
def processCluster (customers : List (Key × Data)) (st : FilterState)
    (c : Key × List Key) : FilterState where
  result := setD st.result c.1 (clusterData customers (lookupD {} st.result c.1) c.2)
  dupes :=
    if 1 < c.2.length
    then setD st.dupes c.1 (clusterLedger customers (lookupD [] st.dupes c.1) c.2)
    else st.dupes

/-- `fuzzy_filter` (lines 251-342).  Note: the `tolerance` parameter of
the source function is not forwarded; line 321 passes the literal `0.8`
to the index of every partition, so the embedding builds every
partition index at `8/10` regardless of `tolerance`. -/
def fuzzyFilter (sim : String → String → ℚ) (tolerance : ℚ)
    (customers : List (Key × Data)) :
    List (Key × Data) × List (Key × List (Key × Data)) :=
  let clusters := allClustersWith sim (8/10) customers
  let st := clusters.foldl (processCluster customers) ⟨[], []⟩
  (st.result, st.dupes)

/-- Definition following the words of the spec (claim C3): identical to
`fuzzyFilter` except that the index of every partition is built at the
configured tolerance, as the spec prescribes. -/
def fuzzyFilterSpecTolerance (sim : String → String → ℚ) (tolerance : ℚ)
    (customers : List (Key × Data)) :
    List (Key × Data) × List (Key × List (Key × Data)) :=
  let clusters := allClustersWith sim tolerance customers
  let st := clusters.foldl (processCluster customers) ⟨[], []⟩
  (st.result, st.dupes)

/-- A concrete key used in witnesses and counterexamples. -/
def keyA : Key := ⟨"A", "X", "C", "CA", "90001"⟩

/-- A concrete key in the same `(state, zip)` partition as `keyA` with
a different composite string. -/
def keyB : Key := ⟨"B", "Y", "C", "CA", "90001"⟩

/-- A concrete two-customer channel mapping over one partition. -/
def demoCustomers : List (Key × Data) :=
  [(keyA, { tdlinx := some "1" }), (keyB, { sold_to := some "2" })]

/-- A concrete pluggable similarity function: identical strings score
1, distinct strings score 1/2. -/
def simHalf (a b : String) : ℚ := if a = b then 1 else 1/2

/-- A concrete pluggable similarity function that scores every pair of
strings as identical. -/
def simOne (a b : String) : ℚ := 1

/-- A concrete key in a different `(state, zip)` partition from `keyA`
and `keyB`. -/
def keyC : Key := ⟨"D", "Z", "E", "NY", "10001"⟩

/-- A concrete channel mapping whose two keys lie in two different
partitions. -/
def demoTwoParts : List (Key × Data) :=
  [(keyA, { tdlinx := some "1" }), (keyC, { is_in_ww := true })]

/-- A concrete channel mapping that contains the degenerate all-empty
key. -/
def demoWithEmpty : List (Key × Data) :=
  demoCustomers ++ [(emptyKey, { is_in_gallo := true })]

/-- All splits of a character list into a prefix and the corresponding
suffix, shortest prefix first: the candidate expansions of a non-greedy
dot-star, tried in the order a backtracking regex engine tries them. -/
def splitsOf (l : List Char) : List (List Char × List Char) :=
  (List.range (l.length + 1)).map (fun i => (l.take i, l.drop i))

/-- A candidate capture of a non-greedy dot-star: any characters except
a newline, which the Python dot never matches. -/
def dotChunk (l : List Char) : Bool :=
  l.all (fun c => c != '\n')

/-- One candidate split of the text that follows the street and its
colon-space: the suffix must open with a space, two letters (the state
group), a colon-space, and five digits (the zip group); anything may
follow, since the final non-greedy dot-star of `ADDRESS` matches the
empty string and `re.match` does not anchor the end. -/
def cityStep (p : List Char × List Char) :
    Option (List Char × List Char × List Char) :=
  match p with
  | (city, ' ' :: s1 :: s2 :: ':' :: ' ' :: z1 :: z2 :: z3 :: z4 :: z5 :: _) =>
    if dotChunk city && s1.isAlpha && s2.isAlpha && z1.isDigit && z2.isDigit
        && z3.isDigit && z4.isDigit && z5.isDigit
    then some (city, [s1, s2], [z1, z2, z3, z4, z5])
    else none
  | _ => none

/-- The city, state and zip groups captured from the text after the
street: the non-greedy city takes the shortest prefix that lets the
rest of the pattern match. -/
def cityMatch (l : List Char) : Option (List Char × List Char × List Char) :=
  (splitsOf l).findSome? cityStep

/-- One candidate split for the street group: the suffix must open with
a colon-space and the rest must match the city pattern. -/
def streetStep (p : List Char × List Char) :
    Option (List Char × List Char × List Char × List Char) :=
  match p with
  | (street, ':' :: ' ' :: rest) =>
    if dotChunk street
    then (cityMatch rest).map (fun q => (street, q))
    else none
  | _ => none

/-- `ADDRESS.match` of src/melissa.py lines 52-56 and 194: the street,
city, state and zip groups of the pattern under leftmost non-greedy
matching, or `none` when the input does not match. -/
def addressMatch (l : List Char) :
    Option (List Char × List Char × List Char × List Char) :=
  (splitsOf l).findSome? streetStep

/-- Lines 193-197: parse a store address, failing with the error
message that carries the offending input when the regex does not
match. -/
def parseStoreAddress (l : List Char) :
    Except (List Char) (List Char × List Char × List Char × List Char) :=
  match addressMatch l with
  | some g => Except.ok g
  | none => Except.error ("failed to parse address: ".toList ++ l)

/-- The shape of a decomposed address: street, colon-space, city,
space, state, colon-space, zip, then arbitrary trailing garbage. -/
def grammarShape (street city st z rest : List Char) : List Char :=
  street ++ (':' :: ' ' :: (city ++ (' ' :: (st ++ (':' :: ' ' :: (z ++ rest))))))

/-- Definition following the words of the claim (C8): the input matches
the grammar street colon-space city space STATE colon-space ZIP
trailing-garbage, with STATE exactly two letters, ZIP exactly five
digits, and street and city arbitrary text. -/
def grammarMatch (l : List Char) : Prop :=
  ∃ street city st z rest, l = grammarShape street city st z rest ∧
    st.length = 2 ∧ (∀ c ∈ st, c.isAlpha) ∧
    z.length = 5 ∧ (∀ c ∈ z, c.isDigit)

/-- The grammar as the regex implements it: as `grammarMatch`, except
that street and city may not contain a newline, because the Python dot
never matches one. -/
def grammarMatchNoNL (l : List Char) : Prop :=
  ∃ street city st z rest, l = grammarShape street city st z rest ∧
    dotChunk street = true ∧ dotChunk city = true ∧
    st.length = 2 ∧ (∀ c ∈ st, c.isAlpha) ∧
    z.length = 5 ∧ (∀ c ∈ z, c.isDigit)

/-- The example input of the spec and of the docstring at line 40. -/
def demoAddress : List Char :=
  "1300 Dana Dr: Redding CA: 96003-4071".toList

/-- An input matching the claim grammar whose street contains a
newline. -/
def newlineAddress : List Char :=
  ['a', '\n', 'b', ':', ' ', 'c', 'd', ' ', 'E', 'F', ':', ' ',
    '1', '2', '3', '4', '5']

end Melissa

namespace Melissa

theorem mergeField_none_left (x : Option String) : mergeField none x = x := by
  cases x <;> rfl

theorem mergeField_some_right (old : Option String) (v : String) :
    mergeField old (some v) = some v := rfl

theorem mergeField_none_right (old : Option String) : mergeField old none = old := rfl

theorem update_default_left (d : Data) : Data.update {} d = d := by
  cases d with
  | mk t s l c sc b1 b2 b3 =>
    simp only [Data.update, mergeField_none_left]
    rfl

theorem mergeField_eq_ite (a b : Option String) :
    mergeField a b = if b = none then a else b := by
  cases b <;> simp [mergeField]

theorem mergeField_eq_none_iff (a b : Option String) :
    mergeField a b = none ↔ a = none ∧ b = none := by
  cases b <;> simp [mergeField]

theorem mergeField_comm_of (a b : Option String)
    (h : a = none ∨ b = none ∨ a = b) :
    mergeField a b = mergeField b a := by
  rcases h with h | h | h
  · subst h; cases b <;> rfl
  · subst h; cases a <;> rfl
  · subst h; rfl

/-- C1 (amended): in `Data.update`, each optional scalar field of the
existing record is overwritten by the incoming value exactly when the
incoming value is non-null (an incoming empty string counts as a value
and does overwrite); an existing non-null value is never cleared to
null, because the merged field is null only when both sides are null. -/
theorem c1_scalar_overwrite_iff_nonnull (a b : Data) :
    ((Data.update a b).tdlinx = if b.tdlinx = none then a.tdlinx else b.tdlinx) ∧
    ((Data.update a b).sold_to = if b.sold_to = none then a.sold_to else b.sold_to) ∧
    ((Data.update a b).license_number =
      if b.license_number = none then a.license_number else b.license_number) ∧
    ((Data.update a b).channel = if b.channel = none then a.channel else b.channel) ∧
    ((Data.update a b).sub_channel =
      if b.sub_channel = none then a.sub_channel else b.sub_channel) ∧
    ((Data.update a b).tdlinx = none ↔ a.tdlinx = none ∧ b.tdlinx = none) ∧
    ((Data.update a b).sold_to = none ↔ a.sold_to = none ∧ b.sold_to = none) ∧
    ((Data.update a b).license_number = none ↔
      a.license_number = none ∧ b.license_number = none) ∧
    ((Data.update a b).channel = none ↔ a.channel = none ∧ b.channel = none) ∧
    ((Data.update a b).sub_channel = none ↔
      a.sub_channel = none ∧ b.sub_channel = none) :=
  ⟨mergeField_eq_ite _ _, mergeField_eq_ite _ _, mergeField_eq_ite _ _,
    mergeField_eq_ite _ _, mergeField_eq_ite _ _, mergeField_eq_none_iff _ _,
    mergeField_eq_none_iff _ _, mergeField_eq_none_iff _ _,
    mergeField_eq_none_iff _ _, mergeField_eq_none_iff _ _⟩

/-- C1, counterexample to the claim as stated: an existing non-null
`tdlinx` value is replaced by an incoming empty string, because
`Data.update` tests only for `None`, not for emptiness. -/
theorem c1_counterexample :
    (Data.update { tdlinx := some "X" } { tdlinx := some "" }).tdlinx = some "" ∧
    some "" ≠ some "X" := by
  constructor
  · rfl
  · decide

/-- C2 (amended): folding records `a` then `b` into a default record
gives the same result as `b` then `a`, provided no optional scalar
field carries two different non-null values in `a` and `b`; the boolean
flags commute unconditionally. -/
theorem c2_fold_comm_of_compat (a b : Data) (h : scalarCompat a b) :
    Data.update (Data.update {} a) b = Data.update (Data.update {} b) a := by
  obtain ⟨h1, h2, h3, h4, h5⟩ := h
  rw [update_default_left, update_default_left]
  cases a with
  | mk t s l c sc b1 b2 b3 =>
    cases b with
    | mk t' s' l' c' sc' b1' b2' b3' =>
      simp only [Data.update, Data.mk.injEq]
      exact ⟨mergeField_comm_of _ _ h1, mergeField_comm_of _ _ h2,
        mergeField_comm_of _ _ h3, mergeField_comm_of _ _ h4,
        mergeField_comm_of _ _ h5, Bool.or_comm _ _, Bool.or_comm _ _,
        Bool.or_comm _ _⟩

/-- C2, witness: the amended commutativity applied to two concrete
compatible records. -/
theorem c2_fold_comm_witness :
    scalarCompat { tdlinx := some "X" } { channel := some "Y", is_in_ww := true } ∧
    Data.update (Data.update {} { tdlinx := some "X" })
        { channel := some "Y", is_in_ww := true } =
      Data.update (Data.update {} { channel := some "Y", is_in_ww := true })
        { tdlinx := some "X" } :=
  ⟨by decide,
    c2_fold_comm_of_compat { tdlinx := some "X" }
      { channel := some "Y", is_in_ww := true } (by decide)⟩

/-- C2, counterexample to the claim as stated: when both records carry
different non-null values for the same scalar field, folding in `a`
then `b` keeps the value of `b`, while `b` then `a` keeps the value of
`a`. -/
theorem c2_counterexample :
    Data.update (Data.update {} { tdlinx := some "X" }) { tdlinx := some "Y" } ≠
      Data.update (Data.update {} { tdlinx := some "Y" }) { tdlinx := some "X" } := by
  decide

/-- C7: the three provenance flags are combined by logical OR on every
update, and they are monotone: once a flag is true it stays true after
folding in any further sequence of update contributions. -/
theorem c7_flags_or_monotone :
    (∀ r u : Data,
      (Data.update r u).is_in_spectra = (r.is_in_spectra || u.is_in_spectra) ∧
      (Data.update r u).is_in_gallo = (r.is_in_gallo || u.is_in_gallo) ∧
      (Data.update r u).is_in_ww = (r.is_in_ww || u.is_in_ww)) ∧
    (∀ (r : Data) (us : List Data),
      (r.is_in_spectra = true → (foldUpdates r us).is_in_spectra = true) ∧
      (r.is_in_gallo = true → (foldUpdates r us).is_in_gallo = true) ∧
      (r.is_in_ww = true → (foldUpdates r us).is_in_ww = true)) := by
  constructor
  · intro r u
    exact ⟨rfl, rfl, rfl⟩
  · intro r us
    induction us generalizing r with
    | nil => exact ⟨fun h => h, fun h => h, fun h => h⟩
    | cons u us ih =>
      refine ⟨fun h => ?_, fun h => ?_, fun h => ?_⟩
      · exact (ih (Data.update r u)).1 (by simp [Data.update, h])
      · exact (ih (Data.update r u)).2.1 (by simp [Data.update, h])
      · exact (ih (Data.update r u)).2.2 (by simp [Data.update, h])

/-- C7, witness: a record marked as coming from spectra keeps the flag
after two further updates. -/
theorem c7_flags_witness :
    (foldUpdates { is_in_spectra := true }
      [{ tdlinx := some "1" }, { is_in_gallo := true }]).is_in_spectra = true :=
  (c7_flags_or_monotone.2 { is_in_spectra := true }
    [{ tdlinx := some "1" }, { is_in_gallo := true }]).1 rfl

/-! ### Association-list lemmas -/

theorem lookupD_eq_dflt {α : Type} (dflt : α) (m : List (Key × α)) (k : Key)
    (h : k ∉ m.map Prod.fst) : lookupD dflt m k = dflt := by
  induction m with
  | nil => rfl
  | cons p rest ih =>
    simp only [List.map_cons, List.mem_cons, not_or] at h
    obtain ⟨h1, h2⟩ := h
    obtain ⟨k0, v⟩ := p
    simp only [lookupD, if_neg (Ne.symm h1)]
    exact ih h2

theorem setD_eq_append {α : Type} (m : List (Key × α)) (k : Key) (v : α)
    (h : k ∉ m.map Prod.fst) : setD m k v = m ++ [(k, v)] := by
  induction m with
  | nil => rfl
  | cons p rest ih =>
    simp only [List.map_cons, List.mem_cons, not_or] at h
    obtain ⟨h1, h2⟩ := h
    obtain ⟨k0, v0⟩ := p
    simp only [setD, if_neg (Ne.symm h1), List.cons_append, List.cons.injEq, true_and]
    exact ih h2

theorem lookupD_mem {α : Type} (dflt : α) (m : List (Key × α)) (k : Key)
    (h : k ∈ m.map Prod.fst) : (k, lookupD dflt m k) ∈ m := by
  induction m with
  | nil => simp at h
  | cons p rest ih =>
    obtain ⟨k0, v⟩ := p
    by_cases e : k0 = k
    · subst e
      simp [lookupD]
    · simp only [List.map_cons, List.mem_cons] at h
      rcases h with h | h

      · exact absurd h.symm e
      · simp only [lookupD, if_neg e, List.mem_cons]
        exact Or.inr (ih h)

theorem delKey_map_fst_sublist (m : List (Key × Data)) (k : Key) :
    ((delKey m k).map Prod.fst).Sublist (m.map Prod.fst) := by
  induction m with
  | nil => simp [delKey]
  | cons p rest ih =>
    obtain ⟨k0, v0⟩ := p
    by_cases e : k0 = k
    · simp only [delKey, if_pos e, List.map_cons]
      exact List.sublist_cons_self _ _
    · simp only [delKey, if_neg e, List.map_cons]
      exact ih.cons₂ _

theorem not_mem_delKey (m : List (Key × Data)) (k : Key)
    (hnd : (m.map Prod.fst).Nodup) : k ∉ (delKey m k).map Prod.fst := by
  induction m with
  | nil => simp [delKey]
  | cons p rest ih =>
    obtain ⟨k0, v0⟩ := p
    simp only [List.map_cons, List.nodup_cons] at hnd
    by_cases e : k0 = k
    · subst e
      simp only [delKey, if_pos rfl]
      exact hnd.1
    · simp only [delKey, if_neg e, List.map_cons, List.mem_cons, not_or]
      exact ⟨fun h => e h.symm, ih hnd.2⟩

theorem removeEmpty_not_mem (m : List (Key × Data))
    (hnd : (m.map Prod.fst).Nodup) :
    emptyKey ∉ (removeEmpty m).map Prod.fst := by
  unfold removeEmpty
  by_cases h : emptyKey ∈ m.map Prod.fst
  · rw [if_pos h]
    exact not_mem_delKey m emptyKey hnd
  · rw [if_neg h]
    exact h

/-! ### Grouping lemmas -/

theorem addToGroup_uniform (p : String × String) (k : Key)
    (acc : List ((String × String) × List Key))
    (hacc : ∀ g ∈ acc, ∀ x ∈ g.2, (x.state, x.zip) = g.1)
    (hk : (k.state, k.zip) = p) :
    ∀ g ∈ addToGroup p k acc, ∀ x ∈ g.2, (x.state, x.zip) = g.1 := by
  induction acc with
  | nil =>
    intro g hg x hx
    simp only [addToGroup, List.mem_singleton] at hg
    subst hg
    simp only [List.mem_singleton] at hx
    subst hx
    exact hk
  | cons q rest ih =>
    obtain ⟨q1, l⟩ := q
    by_cases e : q1 = p
    · simp only [addToGroup, if_pos e]
      intro g hg x hx
      rcases List.mem_cons.mp hg with rfl | hg
      · rcases List.mem_append.mp hx with hx | hx
        · exact hacc (q1, l) (List.mem_cons_self _ _) x hx
        · simp only [List.mem_singleton] at hx
          subst hx
          rw [hk, e]
      · exact hacc g (List.mem_cons_of_mem _ hg) x hx
    · simp only [addToGroup, if_neg e]
      intro g hg x hx
      rcases List.mem_cons.mp hg with rfl | hg
      · exact hacc (q1, l) (List.mem_cons_self _ _) x hx
      · exact ih (fun g hg => hacc g (List.mem_cons_of_mem _ hg)) g hg x hx

theorem groupByZip_go_uniform (ks : List Key)
    (acc : List ((String × String) × List Key))
    (hacc : ∀ g ∈ acc, ∀ x ∈ g.2, (x.state, x.zip) = g.1) :
    ∀ g ∈ ks.foldl (fun acc k => addToGroup (k.state, k.zip) k acc) acc,
      ∀ x ∈ g.2, (x.state, x.zip) = g.1 := by
  induction ks generalizing acc with
  | nil => exact hacc
  | cons k ks ih =>
    exact ih _ (addToGroup_uniform (k.state, k.zip) k acc hacc rfl)

theorem groupByZip_uniform (ks : List Key) :
    ∀ g ∈ groupByZip ks, ∀ x ∈ g.2, (x.state, x.zip) = g.1 :=
  groupByZip_go_uniform ks [] (by simp)

theorem addToGroup_flatten_perm (p : String × String) (k : Key)
    (acc : List ((String × String) × List Key)) :
    ((addToGroup p k acc).map Prod.snd).flatten.Perm
      (k :: (acc.map Prod.snd).flatten) := by
  induction acc with
  | nil => simp [addToGroup]
  | cons q rest ih =>
    obtain ⟨q1, l⟩ := q
    by_cases e : q1 = p
    · simp only [addToGroup, if_pos e, List.map_cons, List.flatten_cons,
        List.append_assoc, List.singleton_append]
      exact List.perm_middle
    · simp only [addToGroup, if_neg e, List.map_cons, List.flatten_cons]
      exact (List.Perm.append_left l ih).trans List.perm_middle

theorem groupByZip_go_flatten_perm (ks : List Key)
    (acc : List ((String × String) × List Key)) :
    ((ks.foldl (fun acc k => addToGroup (k.state, k.zip) k acc) acc).map
      Prod.snd).flatten.Perm ((acc.map Prod.snd).flatten ++ ks) := by
  induction ks generalizing acc with
  | nil => simp
  | cons k ks ih =>
    refine (ih _).trans ?_
    refine (List.Perm.append_right ks (addToGroup_flatten_perm _ _ _)).trans ?_
    exact List.perm_middle.symm

theorem groupByZip_flatten_perm (ks : List Key) :
    ((groupByZip ks).map Prod.snd).flatten.Perm ks := by
  simpa using groupByZip_go_flatten_perm ks []

/-! ### Clustering lemmas -/

theorem addToClusters_flatten_perm (sim : String → String → ℚ) (tol : ℚ)
    (k : Key) (acc : List (Key × List Key)) :
    ((addToClusters sim tol k acc).map Prod.snd).flatten.Perm
      (k :: (acc.map Prod.snd).flatten) := by
  induction acc with
  | nil => simp [addToClusters]
  | cons c rest ih =>
    obtain ⟨c1, ms⟩ := c
    by_cases e : tol ≤ sim (composite c1) (composite k)
    · simp only [addToClusters, if_pos e, List.map_cons, List.flatten_cons,
        List.append_assoc, List.singleton_append]
      exact List.perm_middle
    · simp only [addToClusters, if_neg e, List.map_cons, List.flatten_cons]
      exact (List.Perm.append_left ms ih).trans List.perm_middle

theorem clustersOf_go_flatten_perm (sim : String → String → ℚ) (tol : ℚ)
    (ks : List Key) (acc : List (Key × List Key)) :
    ((ks.foldl (fun acc k => addToClusters sim tol k acc) acc).map
      Prod.snd).flatten.Perm ((acc.map Prod.snd).flatten ++ ks) := by
  induction ks generalizing acc with
  | nil => simp
  | cons k ks ih =>
    refine (ih _).trans ?_
    refine (List.Perm.append_right ks (addToClusters_flatten_perm _ _ _ _)).trans ?_
    exact List.perm_middle.symm

theorem clustersOf_flatten_perm (sim : String → String → ℚ) (tol : ℚ)
    (ks : List Key) :
    ((clustersOf sim tol ks).map Prod.snd).flatten.Perm ks := by
  simpa using clustersOf_go_flatten_perm sim tol ks []

theorem addToClusters_head (sim : String → String → ℚ) (tol : ℚ) (k : Key)
    (acc : List (Key × List Key))
    (hacc : ∀ c ∈ acc, ∃ t, c.2 = c.1 :: t) :
    ∀ c ∈ addToClusters sim tol k acc, ∃ t, c.2 = c.1 :: t := by
  induction acc with
  | nil =>
    intro c hc
    simp only [addToClusters, List.mem_singleton] at hc
    subst hc
    exact ⟨[], rfl⟩
  | cons c0 rest ih =>
    obtain ⟨c1, ms⟩ := c0
    by_cases e : tol ≤ sim (composite c1) (composite k)
    · simp only [addToClusters, if_pos e]
      intro c hc
      rcases List.mem_cons.mp hc with rfl | hc
      · obtain ⟨t, ht⟩ := hacc (c1, ms) (List.mem_cons_self _ _)
        exact ⟨t ++ [k], by simp at ht; simp [ht]⟩
      · exact hacc c (List.mem_cons_of_mem _ hc)
    · simp only [addToClusters, if_neg e]
      intro c hc
      rcases List.mem_cons.mp hc with rfl | hc
      · exact hacc (c1, ms) (List.mem_cons_self _ _)
      · exact ih (fun c hc => hacc c (List.mem_cons_of_mem _ hc)) c hc

theorem clustersOf_go_head (sim : String → String → ℚ) (tol : ℚ) (ks : List Key)
    (acc : List (Key × List Key)) (hacc : ∀ c ∈ acc, ∃ t, c.2 = c.1 :: t) :
    ∀ c ∈ ks.foldl (fun acc k => addToClusters sim tol k acc) acc,
      ∃ t, c.2 = c.1 :: t := by
  induction ks generalizing acc with
  | nil => exact hacc
  | cons k ks ih => exact ih _ (addToClusters_head sim tol k acc hacc)

theorem clustersOf_head (sim : String → String → ℚ) (tol : ℚ) (ks : List Key) :
    ∀ c ∈ clustersOf sim tol ks, ∃ t, c.2 = c.1 :: t :=
  clustersOf_go_head sim tol ks [] (by simp)

theorem allClustersWith_head (sim : String → String → ℚ) (tol : ℚ)
    (customers : List (Key × Data)) :
    ∀ c ∈ allClustersWith sim tol customers, ∃ t, c.2 = c.1 :: t := by
  intro c hc
  simp only [allClustersWith, List.mem_flatten, List.mem_map] at hc
  obtain ⟨_, ⟨g, hg, rfl⟩, hcg⟩ := hc
  exact clustersOf_head sim tol g.2 c hcg

theorem allClustersWith_canon_mem (sim : String → String → ℚ) (tol : ℚ)
    (customers : List (Key × Data)) :
    ∀ c ∈ allClustersWith sim tol customers, c.1 ∈ c.2 := by
  intro c hc
  obtain ⟨t, ht⟩ := allClustersWith_head sim tol customers c hc
  rw [ht]
  exact List.mem_cons_self _ _

theorem allClustersWith_flatten_perm (sim : String → String → ℚ) (tol : ℚ)
    (customers : List (Key × Data)) :
    ((allClustersWith sim tol customers).map Prod.snd).flatten.Perm
      (customers.map Prod.fst) := by
  unfold allClustersWith
  refine List.Perm.trans ?_ (groupByZip_flatten_perm (customers.map Prod.fst))
  generalize groupByZip (customers.map Prod.fst) = gs
  induction gs with
  | nil => simp
  | cons g rest ih =>
    simp only [List.map_cons, List.flatten_cons, List.map_append, List.flatten_append]
    exact (clustersOf_flatten_perm sim tol g.2).append ih

theorem mem_flatten_eq_of_nodup {α : Type} {L : List (List α)}
    (hnd : L.flatten.Nodup) {l1 l2 : List α} (h1 : l1 ∈ L) (h2 : l2 ∈ L)
    {a : α} (ha1 : a ∈ l1) (ha2 : a ∈ l2) : l1 = l2 := by
  induction L with
  | nil => simp at h1
  | cons l rest ih =>
    rw [List.flatten_cons, List.nodup_append] at hnd
    obtain ⟨hl, hrest, hdisj⟩ := hnd
    rcases List.mem_cons.mp h1 with rfl | hh1
    · rcases List.mem_cons.mp h2 with rfl | hh2
      · rfl
      · exact (hdisj ha1 (List.mem_flatten.mpr ⟨l2, hh2, ha2⟩)).elim
    · rcases List.mem_cons.mp h2 with rfl | hh2
      · exact (hdisj ha2 (List.mem_flatten.mpr ⟨l1, hh1, ha1⟩)).elim
      · exact ih hrest hh1 hh2

theorem nodup_fst_of_head_flatten (L : List (Key × List Key))
    (hhead : ∀ c ∈ L, ∃ t, c.2 = c.1 :: t)
    (hflat : ((L.map Prod.snd).flatten).Nodup) : (L.map Prod.fst).Nodup := by
  induction L with
  | nil => simp
  | cons c rest ih =>
    rw [List.map_cons, List.flatten_cons, List.nodup_append] at hflat
    obtain ⟨h2, hrest, hdisj⟩ := hflat
    rw [List.map_cons, List.nodup_cons]
    constructor
    · intro hmem
      obtain ⟨c', hc', he⟩ := List.mem_map.mp hmem
      obtain ⟨t, ht⟩ := hhead c (List.mem_cons_self _ _)
      obtain ⟨t', ht'⟩ := hhead c' (List.mem_cons_of_mem _ hc')
      have hc1 : c.1 ∈ c.2 := by
        rw [ht]
        exact List.mem_cons_self _ _
      have hc1' : c.1 ∈ (rest.map Prod.snd).flatten := by
        refine List.mem_flatten.mpr ⟨c'.2, List.mem_map.mpr ⟨c', hc', rfl⟩, ?_⟩
        rw [ht', he]
        exact List.mem_cons_self _ _
      exact hdisj hc1 hc1'
    · exact ih (fun c hc => hhead c (List.mem_cons_of_mem _ hc)) hrest

theorem allClustersWith_flatten_nodup (sim : String → String → ℚ) (tol : ℚ)
    (customers : List (Key × Data)) (hnd : (customers.map Prod.fst).Nodup) :
    ((allClustersWith sim tol customers).map Prod.snd).flatten.Nodup :=
  (allClustersWith_flatten_perm sim tol customers).symm.nodup hnd

theorem allClustersWith_members_nodup (sim : String → String → ℚ) (tol : ℚ)
    (customers : List (Key × Data)) (hnd : (customers.map Prod.fst).Nodup) :
    ∀ c ∈ allClustersWith sim tol customers, c.2.Nodup := by
  intro c hc
  have h := List.nodup_flatten.mp (allClustersWith_flatten_nodup sim tol customers hnd)
  exact h.1 c.2 (List.mem_map.mpr ⟨c, hc, rfl⟩)

theorem allClustersWith_fst_nodup (sim : String → String → ℚ) (tol : ℚ)
    (customers : List (Key × Data)) (hnd : (customers.map Prod.fst).Nodup) :
    ((allClustersWith sim tol customers).map Prod.fst).Nodup :=
  nodup_fst_of_head_flatten _ (allClustersWith_head sim tol customers)
    (allClustersWith_flatten_nodup sim tol customers hnd)

theorem allClustersWith_unique (sim : String → String → ℚ) (tol : ℚ)
    (customers : List (Key × Data)) (hnd : (customers.map Prod.fst).Nodup)
    {c1 c2 : Key × List Key} (h1 : c1 ∈ allClustersWith sim tol customers)
    (h2 : c2 ∈ allClustersWith sim tol customers) {k : Key}
    (hk1 : k ∈ c1.2) (hk2 : k ∈ c2.2) : c1 = c2 := by
  have hm := mem_flatten_eq_of_nodup
    (allClustersWith_flatten_nodup sim tol customers hnd)
    (List.mem_map.mpr ⟨c1, h1, rfl⟩) (List.mem_map.mpr ⟨c2, h2, rfl⟩) hk1 hk2
  obtain ⟨t1, ht1⟩ := allClustersWith_head sim tol customers c1 h1
  obtain ⟨t2, ht2⟩ := allClustersWith_head sim tol customers c2 h2
  have hcons : c1.1 :: t1 = c2.1 :: t2 := by rw [← ht1, ← ht2, hm]
  injection hcons with hfst _
  exact Prod.ext hfst hm

theorem allClustersWith_same_zip (sim : String → String → ℚ) (tol : ℚ)
    (customers : List (Key × Data)) :
    ∀ c ∈ allClustersWith sim tol customers, ∀ k ∈ c.2,
      k.state = c.1.state ∧ k.zip = c.1.zip := by
  intro c hc k hk
  simp only [allClustersWith, List.mem_flatten, List.mem_map] at hc
  obtain ⟨_, ⟨g, hg, rfl⟩, hcg⟩ := hc
  have hmem : ∀ x ∈ c.2, x ∈ g.2 := by
    intro x hx
    have hx2 : x ∈ ((clustersOf sim tol g.2).map Prod.snd).flatten :=
      List.mem_flatten.mpr ⟨c.2, List.mem_map.mpr ⟨c, hcg, rfl⟩, hx⟩
    exact ((clustersOf_flatten_perm sim tol g.2).mem_iff).mp hx2
  have hcanon : c.1 ∈ c.2 := by
    obtain ⟨t, ht⟩ := clustersOf_head sim tol g.2 c hcg
    rw [ht]
    exact List.mem_cons_self _ _
  have hk1 := groupByZip_uniform _ g hg k (hmem k hk)
  have hk2 := groupByZip_uniform _ g hg c.1 (hmem c.1 hcanon)
  have := hk1.trans hk2.symm
  exact ⟨congrArg Prod.fst this, congrArg Prod.snd this⟩

/-! ### The merge fold of lines 323-338 -/

theorem clusterLedger_eq_map (customers : List (Key × Data)) (members : List Key)
    (entry : List (Key × Data)) (hnd : members.Nodup)
    (hfresh : ∀ k ∈ members, k ∉ entry.map Prod.fst) :
    clusterLedger customers entry members
      = entry ++ members.map (fun k => (k, lookupD {} customers k)) := by
  induction members generalizing entry with
  | nil => simp [clusterLedger]
  | cons k ms ih =>
    rw [List.nodup_cons] at hnd
    have hk : k ∉ entry.map Prod.fst := hfresh k (List.mem_cons_self _ _)
    have hstep : clusterLedger customers entry (k :: ms)
        = clusterLedger customers (entry ++ [(k, lookupD {} customers k)]) ms := by
      unfold clusterLedger
      rw [List.foldl_cons, lookupD_eq_dflt _ _ _ hk, update_default_left,
        setD_eq_append _ _ _ hk]
    rw [hstep, ih (entry ++ [(k, lookupD {} customers k)]) hnd.2 ?_]
    · simp
    · intro x hx
      rw [List.map_append, List.mem_append]
      rintro (hx1 | hx2)
      · exact hfresh x (List.mem_cons_of_mem _ hx) hx1
      · simp only [List.map_cons, List.map_nil, List.mem_singleton] at hx2
        exact hnd.1 (hx2 ▸ hx)

theorem foldl_processCluster_spec (customers : List (Key × Data))
    (clusters : List (Key × List Key)) (st : FilterState)
    (hnd : (clusters.map Prod.fst).Nodup)
    (hr : ∀ c ∈ clusters, c.1 ∉ st.result.map Prod.fst)
    (hd : ∀ c ∈ clusters, c.1 ∉ st.dupes.map Prod.fst) :
    (clusters.foldl (processCluster customers) st).result
        = st.result ++ clusters.map (fun c => (c.1, clusterData customers {} c.2))
      ∧ (clusters.foldl (processCluster customers) st).dupes
        = st.dupes ++ (clusters.filter (fun c => 1 < c.2.length)).map
            (fun c => (c.1, clusterLedger customers [] c.2)) := by
  induction clusters generalizing st with
  | nil => simp
  | cons c cls ih =>
    rw [List.map_cons, List.nodup_cons] at hnd
    obtain ⟨hc1, hnd⟩ := hnd
    have hcr : c.1 ∉ st.result.map Prod.fst := hr c (List.mem_cons_self _ _)
    have hcd : c.1 ∉ st.dupes.map Prod.fst := hd c (List.mem_cons_self _ _)
    have hstep : processCluster customers st c =
        ⟨st.result ++ [(c.1, clusterData customers {} c.2)],
          if 1 < c.2.length
          then st.dupes ++ [(c.1, clusterLedger customers [] c.2)]
          else st.dupes⟩ := by
      unfold processCluster
      rw [lookupD_eq_dflt _ _ _ hcr, setD_eq_append _ _ _ hcr]
      by_cases hbig : 1 < c.2.length
      · rw [if_pos hbig, if_pos hbig, lookupD_eq_dflt _ _ _ hcd,
          setD_eq_append _ _ _ hcd]
      · rw [if_neg hbig, if_neg hbig]
    have hne : ∀ c' ∈ cls, c'.1 ≠ c.1 := by
      intro c' hc' he
      exact hc1 (List.mem_map.mpr ⟨c', hc', he⟩)
    have ih' := ih (FilterState.mk
        (st.result ++ [(c.1, clusterData customers {} c.2)])
        (if 1 < c.2.length
          then st.dupes ++ [(c.1, clusterLedger customers [] c.2)]
          else st.dupes)) hnd ?_ ?_
    · rw [List.foldl_cons, hstep]
      constructor
      · rw [ih'.1]
        simp
      · rw [ih'.2]
        by_cases hbig : 1 < c.2.length
        · simp [hbig]
        · simp [hbig]
    · intro c' hc'
      rw [List.map_append, List.mem_append]
      rintro (h | h)
      · exact hr c' (List.mem_cons_of_mem _ hc') h
      · simp only [List.map_cons, List.map_nil, List.mem_singleton] at h
        exact hne c' hc' h
    · intro c' hc'
      by_cases hbig : 1 < c.2.length
      · rw [if_pos hbig, List.map_append, List.mem_append]
        rintro (h | h)
        · exact hd c' (List.mem_cons_of_mem _ hc') h
        · simp only [List.map_cons, List.map_nil, List.mem_singleton] at h
          exact hne c' hc' h
      · rw [if_neg hbig]
        exact hd c' (List.mem_cons_of_mem _ hc')

theorem fuzzyFilter_result_eq (sim : String → String → ℚ) (tol : ℚ)
    (customers : List (Key × Data)) (hnd : (customers.map Prod.fst).Nodup) :
    (fuzzyFilter sim tol customers).1
      = (allClustersWith sim (8/10) customers).map
          (fun c => (c.1, clusterData customers {} c.2)) := by
  have h := foldl_processCluster_spec customers
    (allClustersWith sim (8/10) customers) ⟨[], []⟩
    (allClustersWith_fst_nodup sim (8/10) customers hnd)
    (by simp) (by simp)
  simpa [fuzzyFilter] using h.1

theorem fuzzyFilter_dupes_eq (sim : String → String → ℚ) (tol : ℚ)
    (customers : List (Key × Data)) (hnd : (customers.map Prod.fst).Nodup) :
    (fuzzyFilter sim tol customers).2
      = ((allClustersWith sim (8/10) customers).filter
          (fun c => 1 < c.2.length)).map
          (fun c => (c.1, c.2.map (fun k => (k, lookupD {} customers k)))) := by
  have h := foldl_processCluster_spec customers
    (allClustersWith sim (8/10) customers) ⟨[], []⟩
    (allClustersWith_fst_nodup sim (8/10) customers hnd)
    (by simp) (by simp)
  have h2 : (fuzzyFilter sim tol customers).2
      = ((allClustersWith sim (8/10) customers).filter
          (fun c => 1 < c.2.length)).map
          (fun c => (c.1, clusterLedger customers [] c.2)) := by
    simpa [fuzzyFilter] using h.2
  rw [h2]
  refine List.map_congr_left ?_
  intro c hc
  have hcc : c ∈ allClustersWith sim (8/10) customers := List.mem_of_mem_filter hc
  rw [clusterLedger_eq_map customers c.2 []
    (allClustersWith_members_nodup sim (8/10) customers hnd c hcc) (by simp)]
  simp

theorem removeEmpty_nodup (m : List (Key × Data))
    (hnd : (m.map Prod.fst).Nodup) :
    ((removeEmpty m).map Prod.fst).Nodup := by
  unfold removeEmpty
  by_cases h : emptyKey ∈ m.map Prod.fst
  · rw [if_pos h]
    exact (delKey_map_fst_sublist m emptyKey).nodup hnd
  · rw [if_neg h]
    exact hnd

theorem mem_dupes (sim : String → String → ℚ) (tol : ℚ)
    (customers : List (Key × Data)) (hnd : (customers.map Prod.fst).Nodup)
    {e : Key × List (Key × Data)} :
    e ∈ (fuzzyFilter sim tol customers).2 ↔
    ∃ c, c ∈ allClustersWith sim (8/10) customers ∧ 1 < c.2.length ∧
      e = (c.1, c.2.map fun k => (k, lookupD {} customers k)) := by
  rw [fuzzyFilter_dupes_eq sim tol customers hnd]
  constructor
  · intro he
    obtain ⟨c, hc, rfl⟩ := List.mem_map.mp he
    have hcf := List.mem_filter.mp hc
    exact ⟨c, hcf.1, by simpa using hcf.2, rfl⟩
  · rintro ⟨c, hc, hbig, rfl⟩
    exact List.mem_map.mpr ⟨c, List.mem_filter.mpr ⟨hc, by simpa using hbig⟩, rfl⟩

/-- C3 (code bug): the `tolerance` argument of `fuzzy_filter` is
ignored: a run behaves identically under every configured tolerance,
because line 321 passes the literal 0.8 to the index of every
partition.  At the concrete input below, a partition index built at the
configured tolerance 1/4 (as `fuzzyFilterSpecTolerance` does, and as
the claim asserts) clusters the two records of the partition into one
canonical record, while the code keeps them apart. -/
theorem c3_tolerance_ignored :
    (∀ (sim : String → String → ℚ) (t u : ℚ) (customers : List (Key × Data)),
      fuzzyFilter sim t customers = fuzzyFilter sim u customers) ∧
    (fuzzyFilter simHalf (1/4) demoCustomers).1.length = 2 ∧
    (fuzzyFilterSpecTolerance simHalf (1/4) demoCustomers).1.length = 1 := by
  refine ⟨fun sim t u customers => rfl, ?_, ?_⟩
  · have h1 : ("A" ++ " | " ++ "X" ++ " | " ++ "C"
        = "B" ++ " | " ++ "Y" ++ " | " ++ "C") = False := eq_false (by decide)
    have h2 : ((8:ℚ)/10 ≤ 1/2) = False := eq_false (by norm_num)
    simp only [fuzzyFilter, allClustersWith, demoCustomers, keyA, keyB, List.map,
      groupByZip, List.foldl, addToGroup, clustersOf, addToClusters, composite,
      simHalf, h1, if_false, h2]
    rfl
  · have h1 : ("A" ++ " | " ++ "X" ++ " | " ++ "C"
        = "B" ++ " | " ++ "Y" ++ " | " ++ "C") = False := eq_false (by decide)
    have h2 : ((1:ℚ)/4 ≤ 1/2) = True := eq_true (by norm_num)
    simp only [fuzzyFilterSpecTolerance, allClustersWith, demoCustomers, keyA, keyB,
      List.map, groupByZip, List.foldl, addToGroup, clustersOf, addToClusters,
      composite, simHalf, h1, if_false, h2, if_true]
    rfl

/-- C6: clustering never merges two keys from different partitions:
under any similarity function and tolerance, every member key of every
cluster of `fuzzy_filter` carries the same `(state, zip)` pair as the
canonical key of its cluster. -/
theorem c6_members_share_partition (sim : String → String → ℚ) (tol : ℚ)
    (customers : List (Key × Data)) :
    ∀ c ∈ allClustersWith sim tol customers, ∀ k ∈ c.2,
      k.state = c.1.state ∧ k.zip = c.1.zip :=
  allClustersWith_same_zip sim tol customers

/-- C6, witness: in a run whose similarity function scores every pair
as identical, the second key of the demo partition lands in the cluster
of the first, and the theorem yields that they share state and zip. -/
theorem c6_witness : keyB.state = keyA.state ∧ keyB.zip = keyA.zip := by
  have h2 : ((8:ℚ)/10 ≤ (1:ℚ)) = True := eq_true (by norm_num)
  have hmem : ((keyA, [keyA, keyB]) : Key × List Key)
      ∈ allClustersWith simOne (8/10) demoCustomers := by
    simp only [allClustersWith, demoCustomers, keyA, keyB, List.map, groupByZip,
      List.foldl, addToGroup, clustersOf, addToClusters, composite, simOne, h2,
      if_true]
    simp
  exact c6_members_share_partition simOne (8/10) demoCustomers (keyA, [keyA, keyB])
    hmem keyB (by decide)

/-- C4: under the spec model of the index, every key of the input
belongs to exactly one cluster of `fuzzy_filter`; the canonical key of
that cluster appears in the canonical output; when the cluster is the
singleton of the key, the key is its own canonical and no dupe-ledger
entry is keyed by it or contains it; otherwise the key appears in
exactly one dupe-ledger entry. -/
theorem c4_exactly_one_cluster (sim : String → String → ℚ) (tol : ℚ)
    (customers : List (Key × Data)) (hnd : (customers.map Prod.fst).Nodup)
    (k : Key) (hk : k ∈ customers.map Prod.fst) :
    (∃! c, c ∈ allClustersWith sim (8/10) customers ∧ k ∈ c.2) ∧
    (∀ c ∈ allClustersWith sim (8/10) customers, k ∈ c.2 →
      c.1 ∈ (fuzzyFilter sim tol customers).1.map Prod.fst ∧
      (c.2 = [k] → c.1 = k ∧
        ∀ e ∈ (fuzzyFilter sim tol customers).2, e.1 ≠ k ∧ k ∉ e.2.map Prod.fst) ∧
      (c.2 ≠ [k] → 1 < c.2.length ∧
        ∃! e, e ∈ (fuzzyFilter sim tol customers).2 ∧ k ∈ e.2.map Prod.fst)) := by
  constructor
  · have hkf : k ∈ ((allClustersWith sim (8/10) customers).map Prod.snd).flatten :=
      (allClustersWith_flatten_perm sim (8/10) customers).mem_iff.mpr hk
    obtain ⟨l, hl, hkl⟩ := List.mem_flatten.mp hkf
    obtain ⟨c, hc, rfl⟩ := List.mem_map.mp hl
    exact ⟨c, ⟨hc, hkl⟩, fun c' hc' =>
      allClustersWith_unique sim (8/10) customers hnd hc'.1 hc hc'.2 hkl⟩
  · intro c hc hkc
    refine ⟨?_, ?_, ?_⟩
    · rw [fuzzyFilter_result_eq sim tol customers hnd, List.map_map]
      exact List.mem_map.mpr ⟨c, hc, rfl⟩
    · intro hsing
      have hcanon : c.1 = k := by
        have hcm := allClustersWith_canon_mem sim (8/10) customers c hc
        rw [hsing] at hcm
        simpa using hcm
      refine ⟨hcanon, ?_⟩
      intro e he
      obtain ⟨c', hc', hbig, rfl⟩ := (mem_dupes sim tol customers hnd).mp he
      constructor
      · intro hfst
        have hkc' : k ∈ c'.2 := by
          have := allClustersWith_canon_mem sim (8/10) customers c' hc'
          rwa [hfst] at this
        have hcc : c' = c :=
          allClustersWith_unique sim (8/10) customers hnd hc' hc hkc' hkc
        rw [hcc, hsing] at hbig
        simp at hbig
      · intro hmem
        have hkc' : k ∈ c'.2 := by simpa using hmem
        have hcc : c' = c :=
          allClustersWith_unique sim (8/10) customers hnd hc' hc hkc' hkc
        rw [hcc, hsing] at hbig
        simp at hbig
    · intro hne
      have hlen : 1 < c.2.length := by
        by_contra hle
        push_neg at hle
        have hpos : 0 < c.2.length := List.length_pos_of_mem hkc
        have h1 : c.2.length = 1 := by omega
        obtain ⟨a, ha⟩ := List.length_eq_one.mp h1
        rw [ha] at hkc
        simp only [List.mem_singleton] at hkc
        exact hne (by rw [ha, hkc])
      refine ⟨hlen, ⟨(c.1, c.2.map fun x => (x, lookupD {} customers x)),
        ⟨?_, ?_⟩, ?_⟩⟩
      · exact (mem_dupes sim tol customers hnd).mpr ⟨c, hc, hlen, rfl⟩
      · simpa using hkc
      · rintro e' ⟨he', hke'⟩
        obtain ⟨c', hc', hbig', rfl⟩ := (mem_dupes sim tol customers hnd).mp he'
        have hkc' : k ∈ c'.2 := by simpa using hke'
        have hcc : c' = c :=
          allClustersWith_unique sim (8/10) customers hnd hc' hc hkc' hkc
        rw [hcc]

/-- C4, witness: the theorem applied to a concrete two-partition
channel mapping at a concrete key. -/
theorem c4_witness :
    ((demoTwoParts.map Prod.fst).Nodup ∧ keyA ∈ demoTwoParts.map Prod.fst) ∧
    (∃! c, c ∈ allClustersWith simHalf (8/10) demoTwoParts ∧ keyA ∈ c.2) ∧
    keyA ∈ (fuzzyFilter simHalf (1/2) demoTwoParts).1.map Prod.fst :=
  ⟨⟨by decide, by decide⟩,
    (c4_exactly_one_cluster simHalf (1/2) demoTwoParts (by decide) keyA
      (by decide)).1,
    ((c4_exactly_one_cluster simHalf (1/2) demoTwoParts (by decide) keyA
      (by decide)).2 (keyA, [keyA]) (by decide) (by decide)).1⟩

/-- C5: each cluster with more than one member yields exactly one
dupe-ledger entry, keyed by its canonical key and listing all of its
members (hence at least two); a singleton cluster yields none. -/
theorem c5_ledger_entries (sim : String → String → ℚ) (tol : ℚ)
    (customers : List (Key × Data)) (hnd : (customers.map Prod.fst).Nodup) :
    ∀ c ∈ allClustersWith sim (8/10) customers,
      (1 < c.2.length →
        (∃! e, e ∈ (fuzzyFilter sim tol customers).2 ∧ e.1 = c.1) ∧
        ∀ e ∈ (fuzzyFilter sim tol customers).2, e.1 = c.1 →
          2 ≤ e.2.length ∧ e.2.map Prod.fst = c.2) ∧
      (c.2.length = 1 → ∀ e ∈ (fuzzyFilter sim tol customers).2, e.1 ≠ c.1) := by
  intro c hc
  have hsame : ∀ c', c' ∈ allClustersWith sim (8/10) customers → c'.1 = c.1 →
      c' = c := by
    intro c' hc' hfst
    refine allClustersWith_unique sim (8/10) customers hnd hc' hc
      (allClustersWith_canon_mem sim (8/10) customers c' hc') ?_
    rw [hfst]
    exact allClustersWith_canon_mem sim (8/10) customers c hc
  constructor
  · intro hbig
    constructor
    · refine ⟨(c.1, c.2.map fun x => (x, lookupD {} customers x)), ⟨?_, rfl⟩, ?_⟩
      · exact (mem_dupes sim tol customers hnd).mpr ⟨c, hc, hbig, rfl⟩
      · rintro e' ⟨he', hfst⟩
        obtain ⟨c', hc', hbig', rfl⟩ := (mem_dupes sim tol customers hnd).mp he'
        rw [hsame c' hc' hfst]
    · intro e he hfst
      obtain ⟨c', hc', hbig', rfl⟩ := (mem_dupes sim tol customers hnd).mp he
      have hcc : c' = c := hsame c' hc' hfst
      subst hcc
      constructor
      · simp only [List.length_map]
        omega
      · simp [List.map_map, Function.comp_def]
  · intro hone e he hfst
    obtain ⟨c', hc', hbig', rfl⟩ := (mem_dupes sim tol customers hnd).mp he
    have hcc : c' = c := hsame c' hc' hfst
    rw [hcc] at hbig'
    omega

/-- C5, witness: at a concrete input whose partition clusters into one
two-member cluster, that cluster has exactly one dupe-ledger entry,
keyed by its canonical key. -/
theorem c5_witness :
    ∃! e, e ∈ (fuzzyFilter simOne (1/2) demoCustomers).2 ∧ e.1 = keyA := by
  have h2 : ((8:ℚ)/10 ≤ (1:ℚ)) = True := eq_true (by norm_num)
  have hmem : ((keyA, [keyA, keyB]) : Key × List Key)
      ∈ allClustersWith simOne (8/10) demoCustomers := by
    simp only [allClustersWith, demoCustomers, keyA, keyB, List.map, groupByZip,
      List.foldl, addToGroup, clustersOf, addToClusters, composite, simOne, h2,
      if_true]
    simp
  exact ((c5_ledger_entries simOne (1/2) demoCustomers (by decide)
    (keyA, [keyA, keyB]) hmem).1 (by decide)).1

/-- C9: the degenerate all-empty key is filtered out of a channel
mapping after accumulation (lines 242-249), so it neither reaches
clustering nor appears among the canonical keys of the output of
`fuzzy_filter`; both channels run through this same path. -/
theorem c9_empty_key_filtered (sim : String → String → ℚ) (tol : ℚ)
    (m : List (Key × Data)) (hnd : (m.map Prod.fst).Nodup) :
    emptyKey ∉ (removeEmpty m).map Prod.fst ∧
    emptyKey ∉ (fuzzyFilter sim tol (removeEmpty m)).1.map Prod.fst := by
  have h1 := removeEmpty_not_mem m hnd
  refine ⟨h1, fun hmem => ?_⟩
  have hnd' := removeEmpty_nodup m hnd
  rw [fuzzyFilter_result_eq sim tol _ hnd', List.map_map] at hmem
  obtain ⟨c, hc, he⟩ := List.mem_map.mp hmem
  have hcanon : c.1 ∈ (removeEmpty m).map Prod.fst := by
    have hm : c.1 ∈ ((allClustersWith sim (8/10) (removeEmpty m)).map
        Prod.snd).flatten :=
      List.mem_flatten.mpr ⟨c.2, List.mem_map.mpr ⟨c, hc, rfl⟩,
        allClustersWith_canon_mem sim (8/10) (removeEmpty m) c hc⟩
    exact (allClustersWith_flatten_perm sim (8/10) (removeEmpty m)).mem_iff.mp hm
  have hce : c.1 = emptyKey := by simpa using he
  exact h1 (hce ▸ hcanon)

/-- C9, witness: the theorem applied to a concrete channel mapping that
contains the all-empty key. -/
theorem c9_witness :
    (demoWithEmpty.map Prod.fst).Nodup ∧
    (emptyKey ∉ (removeEmpty demoWithEmpty).map Prod.fst ∧
      emptyKey ∉ (fuzzyFilter simHalf (1/2)
        (removeEmpty demoWithEmpty)).1.map Prod.fst) :=
  ⟨by decide, c9_empty_key_filtered simHalf (1/2) demoWithEmpty (by decide)⟩

/-- C10: `fuzzy_filter` builds its outputs from freshly constructed
records: every canonical record is folded from the default record over
the members of its cluster, and every dupe-ledger pair carries exactly
the record the input mapping holds for that member key, before any
cluster merging.  (The embedding is purely functional, so the input
mapping itself is untouched by construction.) -/
theorem c10_fresh_outputs (sim : String → String → ℚ) (tol : ℚ)
    (customers : List (Key × Data)) (hnd : (customers.map Prod.fst).Nodup) :
    ((fuzzyFilter sim tol customers).1
      = (allClustersWith sim (8/10) customers).map
          (fun c => (c.1, clusterData customers {} c.2))) ∧
    (∀ e ∈ (fuzzyFilter sim tol customers).2, ∀ p ∈ e.2,
      p.1 ∈ customers.map Prod.fst ∧ p.2 = lookupD {} customers p.1) := by
  refine ⟨fuzzyFilter_result_eq sim tol customers hnd, ?_⟩
  intro e he p hp
  obtain ⟨c, hc, hbig, rfl⟩ := (mem_dupes sim tol customers hnd).mp he
  obtain ⟨k, hkmem, rfl⟩ := List.mem_map.mp hp
  constructor
  · have hm : k ∈ ((allClustersWith sim (8/10) customers).map Prod.snd).flatten :=
      List.mem_flatten.mpr ⟨c.2, List.mem_map.mpr ⟨c, hc, rfl⟩, hkmem⟩
    exact (allClustersWith_flatten_perm sim (8/10) customers).mem_iff.mp hm
  · rfl

/-- C10, witness: at a concrete input whose partition clusters into one
two-member cluster, the ledger pair of the second key carries exactly
the input record of that key. -/
theorem c10_witness :
    keyB ∈ demoCustomers.map Prod.fst ∧
    ({ sold_to := some "2" } : Data) = lookupD {} demoCustomers keyB := by
  have h2 : ((8:ℚ)/10 ≤ (1:ℚ)) = True := eq_true (by norm_num)
  have hmem : ((keyA, [keyA, keyB]) : Key × List Key)
      ∈ allClustersWith simOne (8/10) demoCustomers := by
    simp only [allClustersWith, demoCustomers, keyA, keyB, List.map, groupByZip,
      List.foldl, addToGroup, clustersOf, addToClusters, composite, simOne, h2,
      if_true]
    simp
  have he : ((keyA, [(keyA, lookupD {} demoCustomers keyA),
      (keyB, lookupD {} demoCustomers keyB)]) : Key × List (Key × Data))
      ∈ (fuzzyFilter simOne (1/2) demoCustomers).2 :=
    (mem_dupes simOne (1/2) demoCustomers (by decide)).mpr
      ⟨(keyA, [keyA, keyB]), hmem, by decide, by decide⟩
  have h := (c10_fresh_outputs simOne (1/2) demoCustomers (by decide)).2 _ he
    (keyB, lookupD {} demoCustomers keyB) (by decide)
  exact ⟨h.1, by decide⟩

/-! ### The address parser -/

theorem splitsOf_append (l : List Char) {p : List Char × List Char}
    (hp : p ∈ splitsOf l) : p.1 ++ p.2 = l := by
  simp only [splitsOf, List.mem_map, List.mem_range] at hp
  obtain ⟨i, hi, rfl⟩ := hp
  exact List.take_append_drop i l

theorem mem_splitsOf (l1 l2 : List Char) : (l1, l2) ∈ splitsOf (l1 ++ l2) := by
  simp only [splitsOf, List.mem_map, List.mem_range]
  refine ⟨l1.length, ?_, ?_⟩
  · simp only [List.length_append]
    omega
  · rw [List.take_left, List.drop_left]

theorem length_eq_five {l : List Char} (h : l.length = 5) :
    ∃ a b c d e, l = [a, b, c, d, e] := by
  cases l with
  | nil => simp at h
  | cons a l1 =>
    cases l1 with
    | nil => simp at h
    | cons b l2 =>
      cases l2 with
      | nil => simp at h
      | cons c l3 =>
        cases l3 with
        | nil => simp at h
        | cons d l4 =>
          cases l4 with
          | nil => simp at h
          | cons e l5 =>
            cases l5 with
            | nil => exact ⟨a, b, c, d, e, rfl⟩
            | cons f l6 =>
              simp only [List.length_cons] at h
              omega

theorem cityStep_eq_some {p : List Char × List Char}
    {b : List Char × List Char × List Char} (h : cityStep p = some b) :
    ∃ s1 s2 z1 z2 z3 z4 z5 tail,
      p.2 = ' ' :: s1 :: s2 :: ':' :: ' ' :: z1 :: z2 :: z3 :: z4 :: z5 :: tail ∧
      b = (p.1, [s1, s2], [z1, z2, z3, z4, z5]) ∧
      dotChunk p.1 = true ∧ s1.isAlpha ∧ s2.isAlpha ∧
      z1.isDigit ∧ z2.isDigit ∧ z3.isDigit ∧ z4.isDigit ∧ z5.isDigit := by
  unfold cityStep at h
  split at h
  · next city s1 s2 z1 z2 z3 z4 z5 tail =>
    split at h
    · next hcond =>
      simp only [Bool.and_eq_true] at hcond
      obtain ⟨⟨⟨⟨⟨⟨⟨hdot, hs1⟩, hs2⟩, h1⟩, h2⟩, h3⟩, h4⟩, h5⟩ := hcond
      injection h with h
      exact ⟨s1, s2, z1, z2, z3, z4, z5, tail, rfl, h.symm, hdot, hs1, hs2,
        h1, h2, h3, h4, h5⟩
    · exact absurd h (by simp)
  · exact absurd h (by simp)

theorem cityStep_complete {city : List Char} {s1 s2 z1 z2 z3 z4 z5 : Char}
    {tail : List Char} (hc : dotChunk city = true)
    (hs1 : s1.isAlpha = true) (hs2 : s2.isAlpha = true)
    (h1 : z1.isDigit = true) (h2 : z2.isDigit = true) (h3 : z3.isDigit = true)
    (h4 : z4.isDigit = true) (h5 : z5.isDigit = true) :
    cityStep (city,
        ' ' :: s1 :: s2 :: ':' :: ' ' :: z1 :: z2 :: z3 :: z4 :: z5 :: tail)
      = some (city, [s1, s2], [z1, z2, z3, z4, z5]) := by
  simp [cityStep, hc, hs1, hs2, h1, h2, h3, h4, h5]

theorem cityMatch_eq_some {l : List Char} {b : List Char × List Char × List Char}
    (h : cityMatch l = some b) :
    ∃ tail, l = b.1 ++ (' ' :: (b.2.1 ++ (':' :: ' ' :: (b.2.2 ++ tail)))) ∧
      dotChunk b.1 = true ∧ b.2.1.length = 2 ∧ (∀ c ∈ b.2.1, c.isAlpha) ∧
      b.2.2.length = 5 ∧ (∀ c ∈ b.2.2, c.isDigit) := by
  obtain ⟨p, hp, hfp⟩ := List.exists_of_findSome?_eq_some h
  obtain ⟨s1, s2, z1, z2, z3, z4, z5, tail, hsnd, rfl, hdot, hs1, hs2,
    h1, h2, h3, h4, h5⟩ := cityStep_eq_some hfp
  have hl := splitsOf_append l hp
  refine ⟨tail, ?_, hdot, rfl, ?_, rfl, ?_⟩
  · rw [← hl, hsnd]
    simp
  · intro c hc
    simp only [List.mem_cons, List.mem_singleton, List.not_mem_nil, or_false] at hc
    rcases hc with rfl | rfl
    · exact hs1
    · exact hs2
  · intro c hc
    simp only [List.mem_cons, List.not_mem_nil, or_false] at hc
    rcases hc with rfl | rfl | rfl | rfl | rfl
    · exact h1
    · exact h2
    · exact h3
    · exact h4
    · exact h5

theorem cityMatch_isSome {city st z tail : List Char}
    (hc : dotChunk city = true) (hst : st.length = 2)
    (hsta : ∀ c ∈ st, c.isAlpha) (hz : z.length = 5)
    (hzd : ∀ c ∈ z, c.isDigit) :
    (cityMatch (city ++ (' ' :: (st ++ (':' :: ' ' :: (z ++ tail)))))).isSome := by
  obtain ⟨s1, s2, rfl⟩ := List.length_eq_two.mp hst
  obtain ⟨z1, z2, z3, z4, z5, rfl⟩ := length_eq_five hz
  rw [cityMatch, List.findSome?_isSome_iff]
  refine ⟨(city,
    ' ' :: s1 :: s2 :: ':' :: ' ' :: z1 :: z2 :: z3 :: z4 :: z5 :: tail), ?_, ?_⟩
  · have hm := mem_splitsOf city
      (' ' :: s1 :: s2 :: ':' :: ' ' :: z1 :: z2 :: z3 :: z4 :: z5 :: tail)
    simpa using hm
  · rw [cityStep_complete hc (hsta s1 (by simp)) (hsta s2 (by simp))
      (hzd z1 (by simp)) (hzd z2 (by simp)) (hzd z3 (by simp))
      (hzd z4 (by simp)) (hzd z5 (by simp))]
    rfl

theorem addressMatch_eq_some {l : List Char}
    {b : List Char × List Char × List Char × List Char}
    (h : addressMatch l = some b) :
    ∃ tail, l = grammarShape b.1 b.2.1 b.2.2.1 b.2.2.2 tail ∧
      dotChunk b.1 = true ∧ dotChunk b.2.1 = true ∧
      b.2.2.1.length = 2 ∧ (∀ c ∈ b.2.2.1, c.isAlpha) ∧
      b.2.2.2.length = 5 ∧ (∀ c ∈ b.2.2.2, c.isDigit) := by
  obtain ⟨p, hp, hfp⟩ := List.exists_of_findSome?_eq_some h
  have hl := splitsOf_append l hp
  unfold streetStep at hfp
  split at hfp
  · next street rest =>
    split at hfp
    · next hdot =>
      obtain ⟨q, hq, hqb⟩ := Option.map_eq_some'.mp hfp
      obtain ⟨tail, hrest, hdc, h2, ha, h5, hd⟩ := cityMatch_eq_some hq
      subst hqb
      refine ⟨tail, ?_, hdot, hdc, h2, ha, h5, hd⟩
      rw [← hl, hrest]
      simp [grammarShape]
    · exact absurd hfp (by simp)
  · exact absurd hfp (by simp)

theorem addressMatch_isSome {street city st z tail : List Char}
    (hs : dotChunk street = true) (hc : dotChunk city = true)
    (hst : st.length = 2) (hsta : ∀ c ∈ st, c.isAlpha)
    (hz : z.length = 5) (hzd : ∀ c ∈ z, c.isDigit) :
    (addressMatch (grammarShape street city st z tail)).isSome := by
  rw [addressMatch, List.findSome?_isSome_iff]
  refine ⟨(street,
    ':' :: ' ' :: (city ++ (' ' :: (st ++ (':' :: ' ' :: (z ++ tail)))))), ?_, ?_⟩
  · have hm := mem_splitsOf street
      (':' :: ' ' :: (city ++ (' ' :: (st ++ (':' :: ' ' :: (z ++ tail))))))
    simpa [grammarShape] using hm
  · show (streetStep _).isSome
    simp only [streetStep, hs, if_true, Option.isSome_map']
    exact cityMatch_isSome hc hst hsta hz hzd

/-- C8 (amended): `ADDRESS.match` accepts exactly the strings matching
the grammar street colon-space city space STATE colon-space ZIP
trailing-garbage, where STATE is exactly two letters, ZIP exactly five
digits, and street and city are arbitrary newline-free text (the Python
dot never matches a newline).  On success the four captured groups
reassemble to a prefix of the input, and the example of the spec parses
to its four stated groups; on failure the caller of lines 193-197 fails
with an error carrying the offending input string. -/
theorem c8_parser_grammar :
    (∀ l street city st z, addressMatch l = some (street, city, st, z) →
      (street ++ (':' :: ' ' :: (city ++ (' ' :: (st ++ (':' :: ' ' :: z))))))
          <+: l ∧
        st.length = 2 ∧ (∀ c ∈ st, c.isAlpha) ∧
        z.length = 5 ∧ (∀ c ∈ z, c.isDigit)) ∧
    (∀ l, (addressMatch l).isSome ↔ grammarMatchNoNL l) ∧
    (addressMatch demoAddress = some ("1300 Dana Dr".toList, "Redding".toList,
      "CA".toList, "96003".toList)) ∧
    (∀ l, addressMatch l = none →
      parseStoreAddress l = Except.error ("failed to parse address: ".toList ++ l)) ∧
    (∀ l g, addressMatch l = some g → parseStoreAddress l = Except.ok g) := by
  refine ⟨?_, ?_, by decide, ?_, ?_⟩
  · intro l street city st z h
    obtain ⟨tail, hl, hds, hdc, h2, ha, h5, hd⟩ := addressMatch_eq_some h
    refine ⟨⟨tail, ?_⟩, h2, ha, h5, hd⟩
    rw [hl]
    simp [grammarShape]
  · intro l
    constructor
    · intro h
      obtain ⟨b, hb⟩ := Option.isSome_iff_exists.mp h
      obtain ⟨tail, hl, hds, hdc, h2, ha, h5, hd⟩ := addressMatch_eq_some hb
      exact ⟨b.1, b.2.1, b.2.2.1, b.2.2.2, tail, hl, hds, hdc, h2, ha, h5, hd⟩
    · rintro ⟨street, city, st, z, tail, rfl, hds, hdc, h2, ha, h5, hd⟩
      exact addressMatch_isSome hds hdc h2 ha h5 hd
  · intro l h
    unfold parseStoreAddress
    rw [h]
  · intro l g h
    unfold parseStoreAddress
    rw [h]

/-- C8, counterexample to the claim as stated: this input matches the
claimed grammar (its street group is the arbitrary text a-newline-b),
but the regex rejects it, because the Python dot never matches a
newline; the caller therefore raises the parse error on an input the
claimed grammar accepts. -/
theorem c8_counterexample :
    grammarMatch newlineAddress ∧ addressMatch newlineAddress = none ∧
    parseStoreAddress newlineAddress
      = Except.error ("failed to parse address: ".toList ++ newlineAddress) :=
  ⟨⟨['a', '\n', 'b'], ['c', 'd'], ['E', 'F'], ['1', '2', '3', '4', '5'], [],
    by decide, by decide, by decide, by decide, by decide⟩, by decide, by rfl⟩

/-- C8, witness: the round-trip applied to the example input of the
spec, the hypothesis discharged by evaluation. -/
theorem c8_witness :
    ("1300 Dana Dr".toList ++ (':' :: ' ' :: ("Redding".toList ++ (' ' ::
      ("CA".toList ++ (':' :: ' ' :: "96003".toList)))))) <+: demoAddress :=
  (c8_parser_grammar.1 demoAddress "1300 Dana Dr".toList "Redding".toList
    "CA".toList "96003".toList (by decide)).1

end Melissa
